import Mathlib

/-!
Shallow embedding of the UTXO state-transition core of this repository
(tuxedo-core executive, runtime executive, utils types/storage, runtime genesis).

Machine integers are modelled as `Nat` with explicit truncation (`% 2^w`)
performed inside the byte-level encoders, mirroring the fixed-width SCALE
encodings of `u32`/`u64`/`H256`.  The `sp_io::storage` backing store is
modelled as an association list from byte-string keys to byte-string values.
Cryptographic primitives (the BlakeTwo256 digest and the two trie-root
accumulators) are external collaborators and are passed in as abstract
function parameters.
-/

namespace Griffin

/-- A byte string: a list of naturals, each intended to be `< 256`. -/
abbrev Bytes := List Nat

/-- Little-endian fixed-width encoding of a natural into `k` bytes,
truncating modulo `256^k` (mirrors casting to a fixed-width integer). -/
def natLE : Nat → Nat → Bytes
  | 0, _ => []
  | k + 1, n => n % 256 :: natLE k (n / 256)

/-- SCALE encoding of a `u32` (4 bytes little-endian). -/
def u32LE (n : Nat) : Bytes := natLE 4 n

/-- SCALE encoding of a `u64` (8 bytes little-endian). -/
def u64LE (n : Nat) : Bytes := natLE 8 n

/-- SCALE encoding of an `H256` digest (32 raw bytes, read little-endian here). -/
def h256LE (n : Nat) : Bytes := natLE 32 n

/-- Little-endian interpretation of a byte string as a natural. -/
def bytesToNatLE : Bytes → Nat
  | [] => 0
  | b :: r => b + 256 * bytesToNatLE r

/-- SCALE compact encoding of a `u32` (`parity_scale_codec::Compact<u32>`):
single-byte mode below `2^6`, two-byte mode below `2^14`, four-byte mode
below `2^30`, and big-integer mode (`0b11` marker plus 4 LE bytes) above. -/
def compactEnc (n : Nat) : Bytes :=
  if n < 2 ^ 6 then [n * 4]
  else if n < 2 ^ 14 then natLE 2 (n * 4 + 1)
  else if n < 2 ^ 30 then natLE 4 (n * 4 + 2)
  else 3 :: u32LE n

/-- Reads `k` bytes from the front of a stream, little-endian
(the decoding of a fixed-width integer); fails if too few bytes remain. -/
def readLE (k : Nat) (bs : Bytes) : Option (Nat × Bytes) :=
  if k ≤ bs.length then some (bytesToNatLE (bs.take k), bs.drop k) else none

/-- SCALE compact decoding: inspects the two mode bits of the first byte. -/
def compactDec (bs : Bytes) : Option (Nat × Bytes) :=
  match bs with
  | [] => none
  | b :: rest =>
    if b % 4 = 0 then some (b / 4, rest)
    else if b % 4 = 1 then
      (readLE 1 rest).map (fun p => ((b + 256 * p.1) / 4, p.2))
    else if b % 4 = 2 then
      (readLE 3 rest).map (fun p => ((b + 256 * p.1) / 4, p.2))
    else
      readLE (b / 4 + 4) rest

/-! ## The backing key-value store (`sp_io::storage`)

Modelled as an association list from byte-string keys to byte-string values;
`storage_set` replaces any binding at the key, `storage_clear` removes it.
This matches the spec's external interface: byte-key/byte-value get/set/clear. -/

abbrev Storage := List (Bytes × Bytes)

def storage_get : Storage → Bytes → Option Bytes
  | [], _ => none
  | (k', v) :: rest, k => if k' = k then some v else storage_get rest k

def storage_clear : Storage → Bytes → Storage
  | [], _ => []
  | (k', v) :: rest, k =>
    if k' = k then storage_clear rest k else (k', v) :: storage_clear rest k

def storage_set (s : Storage) (k v : Bytes) : Storage :=
  (k, v) :: storage_clear s k

/-- `b"header"` — transient in-progress-header slot (`runtime/src/executive.rs`). -/
def HEADER_KEY : Bytes := [104, 101, 97, 100, 101, 114]

/-- `b"height"` — persistent block-height slot. -/
def HEIGHT_KEY : Bytes := [104, 101, 105, 103, 104, 116]

/-- `b"extrinsics"` — transient accumulated-extrinsics slot. -/
def EXTRINSIC_KEY : Bytes := [101, 120, 116, 114, 105, 110, 115, 105, 99, 115]

/-! ## Data model (`utils/src/types.rs`)

`OutputRef`, `Input`, `Output`, `Transaction`, their SCALE encodings, and
the manual `Encode`/`Decode` for `Transaction` that frames it as an opaque
length-prefixed byte blob. -/

/-- `{ tx_hash: H256, index: u32 }`. -/
structure OutputRef where
  tx_hash : Nat
  index : Nat
deriving DecidableEq, Repr

/-- SCALE encoding of an `OutputRef`: 32 raw digest bytes then 4 LE index bytes. -/
def OutputRef.encode (r : OutputRef) : Bytes :=
  h256LE r.tx_hash ++ u32LE r.index

/-- `{ output_ref: OutputRef }`. -/
structure Input where
  output_ref : OutputRef
deriving DecidableEq, Repr

/-- SCALE encoding of an `Input` (just its single field). -/
def Input.encode (i : Input) : Bytes :=
  OutputRef.encode i.output_ref

/-- `{ coin: u64 }` — the minimal-model output payload. -/
structure Output where
  coin : Nat
deriving DecidableEq, Repr

/-- SCALE encoding of an `Output`: the `u64` coin amount, 8 LE bytes. -/
def Output.encode (o : Output) : Bytes :=
  u64LE o.coin

/-- SCALE decoding of an `Output` from the front of a stream. -/
def Output.decode (bs : Bytes) : Option (Output × Bytes) :=
  (readLE 8 bs).map (fun p => (⟨p.1⟩, p.2))

/-- SCALE decoding of an `OutputRef` from the front of a stream. -/
def OutputRef.decode (bs : Bytes) : Option (OutputRef × Bytes) :=
  (readLE 32 bs).bind fun p =>
    (readLE 4 p.2).map fun q => (⟨p.1, q.1⟩, q.2)

/-- SCALE decoding of an `Input` from the front of a stream. -/
def Input.decode (bs : Bytes) : Option (Input × Bytes) :=
  (OutputRef.decode bs).map (fun p => (⟨p.1⟩, p.2))

/-- `{ inputs: Vec<Input>, outputs: Vec<Output> }`. -/
structure Transaction where
  inputs : List Input
  outputs : List Output
deriving DecidableEq, Repr

/-- SCALE encoding of a `Vec`: compact length prefix, then the elements. -/
def encList {α : Type} (enc : α → Bytes) (l : List α) : Bytes :=
  compactEnc l.length ++ (l.map enc).flatten

/-- The SCALE encoding of a `Vec<u8>` viewed as an opaque blob:
compact byte-count prefix followed by the raw bytes. -/
def encOpaqueVec (bs : Bytes) : Bytes :=
  compactEnc bs.length ++ bs

/-- Manual `Encode for Transaction` (`utils/src/types.rs`): encode the two
field vectors, then emit a compact prefix holding their summed byte length
(cast to `u32`) followed by the two byte strings. -/
def Transaction.encode (t : Transaction) : Bytes :=
  let inputs := encList Input.encode t.inputs
  let outputs := encList Output.encode t.outputs
  let total_len := (inputs.length + outputs.length) % 2 ^ 32
  compactEnc total_len ++ inputs ++ outputs

/-- Decode `n` consecutive elements from a stream. -/
def decN {α : Type} (dec : Bytes → Option (α × Bytes)) : Nat → Bytes → Option (List α × Bytes)
  | 0, bs => some ([], bs)
  | k + 1, bs =>
    (dec bs).bind fun p => (decN dec k p.2).map fun q => (p.1 :: q.1, q.2)

/-- SCALE decoding of a `Vec`: compact length, then that many elements. -/
def decList {α : Type} (dec : Bytes → Option (α × Bytes)) (bs : Bytes) :
    Option (List α × Bytes) :=
  (compactDec bs).bind fun p => decN dec p.1 p.2

/-- Manual `Decode for Transaction` (`utils/src/types.rs`): skip the compact
length prefix without checking it, then decode the two field vectors. -/
def Transaction.decode (bs : Bytes) : Option (Transaction × Bytes) :=
  (compactDec bs).bind fun p =>
    (decList Input.decode p.2).bind fun q =>
      (decList Output.decode q.2).map fun r => (⟨q.1, r.1⟩, r.2)

/-- All input references fit their machine widths (`H256` digest, `u32` index);
automatic for the Rust types, a side condition on the `Nat` model. -/
abbrev InputsWF (t : Transaction) : Prop :=
  ∀ i ∈ t.inputs, i.output_ref.tx_hash < 2 ^ 256 ∧ i.output_ref.index < 2 ^ 32

/-- All coin amounts fit in a `u64`. -/
abbrev OutputsWF (t : Transaction) : Prop :=
  ∀ o ∈ t.outputs, o.coin < 2 ^ 64

/-- Machine-width side conditions satisfied by every value of the Rust
`Transaction` type: field ranges and vector lengths within `u32`. -/
abbrev TransactionWF (t : Transaction) : Prop :=
  InputsWF t ∧ OutputsWF t ∧ t.inputs.length < 2 ^ 32 ∧ t.outputs.length < 2 ^ 32

/-! ## The UTXO set (`tuxedo-core/src/utxo_set.rs`, `utils/src/storage.rs`)

A thin accessor over the backing store, keyed by encoded `OutputRef`s. -/

/-- `TransparentUtxoSet::peek_utxo`: fetch and decode; a pure read. -/
def peek_utxo (s : Storage) (output_ref : OutputRef) : Option Output :=
  (storage_get s (OutputRef.encode output_ref)).bind fun d => (Output.decode d).map Prod.fst

/-- `TransparentUtxoSet::consume_utxo`: read the previous value, clear the key. -/
def consume_utxo (s : Storage) (output_ref : OutputRef) : Storage × Option Output :=
  (storage_clear s (OutputRef.encode output_ref), peek_utxo s output_ref)

/-- `TransparentUtxoSet::store_utxo`: write the encoded output at the encoded key. -/
def store_utxo (s : Storage) (output_ref : OutputRef) (output : Output) : Storage :=
  storage_set s (OutputRef.encode output_ref) (Output.encode output)

/-! ## The tuxedo-core executive (`tuxedo-core/src/executive.rs`) -/

inductive UtxoError
  | DuplicateInput
  | PreExistingOutput
  | MissingInput
deriving DecidableEq, Repr

/-- `sp_runtime::transaction_validity::ValidTransaction`. -/
structure ValidTransaction where
  requires : List Bytes
  provides : List Bytes
  priority : Nat
  longevity : Nat
  propagate : Bool
deriving DecidableEq, Repr

/-- `TransactionLongevity::MAX` (`u64::MAX`). -/
def longevityMax : Nat := 2 ^ 64 - 1

/-- The `missing_inputs` list accumulated by the validator's input scan:
the encoded `OutputRef` of every input whose peek finds nothing. -/
def missingInputs (s : Storage) (t : Transaction) : List Bytes :=
  (t.inputs.filter (fun input => (peek_utxo s input.output_ref).isNone)).map
    (fun input => OutputRef.encode input.output_ref)

/-- The `provides` tag list: the encoded derived `OutputRef` of every output
position (`tx_hash` is the hash of the transaction's encoding). -/
def providesList (hash : Bytes → Nat) (t : Transaction) : List Bytes :=
  (List.range t.outputs.length).map
    (fun index => OutputRef.encode ⟨hash (Transaction.encode t), index⟩)

/-- `Executive::validate_tuxedo_transaction`: duplicate-input check (a
`BTreeSet` of encoded inputs must have as many elements as the input list),
missing-input scan, pre-existing-output check over all derived output
references, then the verdict with `requires`/`provides` tags — an early
`Ok` return carrying the missing inputs as `requires` when any input is
absent, an empty `requires` otherwise. -/
def validate_tuxedo_transaction (hash : Bytes → Nat) (s : Storage) (t : Transaction) :
    Except UtxoError ValidTransaction :=
  if (t.inputs.map Input.encode).dedup.length = t.inputs.length then
    if (List.range t.outputs.length).all
        (fun index => (peek_utxo s ⟨hash (Transaction.encode t), index⟩).isNone) then
      if (missingInputs s t).isEmpty then
        .ok ⟨[], providesList hash t, 0, longevityMax, true⟩
      else
        .ok ⟨missingInputs s t, providesList hash t, 0, longevityMax, true⟩
    else
      .error .PreExistingOutput
  else
    .error .DuplicateInput

/-- The input-consumption loop of `Executive::update_storage`. -/
def consumeInputs (s : Storage) (l : List Input) : Storage :=
  l.foldl (fun s input => (consume_utxo s input.output_ref).1) s

/-- The output-creation loop of `Executive::update_storage`
(`enumerate` rendered as a running index). -/
def storeOutputs (tx_hash : Nat) : Storage → Nat → List Output → Storage
  | s, _, [] => s
  | s, index, output :: rest =>
    storeOutputs tx_hash (store_utxo s ⟨tx_hash, index⟩ output) (index + 1) rest

/-- `Executive::update_storage`: consume every input, then store every output
at its reference derived from the hash of the transaction's encoding. -/
def update_storage (hash : Bytes → Nat) (s : Storage) (t : Transaction) : Storage :=
  storeOutputs (hash (Transaction.encode t)) (consumeInputs s t.inputs) 0 t.outputs

/-- `Executive::apply_tuxedo_transaction`: re-validate, reject with
`MissingInput` when `requires` is non-empty, otherwise commit. -/
def apply_tuxedo_transaction (hash : Bytes → Nat) (s : Storage) (t : Transaction) :
    Except UtxoError Storage :=
  (validate_tuxedo_transaction hash s t).bind fun valid_transaction =>
    if valid_transaction.requires.isEmpty then .ok (update_storage hash s t)
    else .error .MissingInput

/-! ## Block lifecycle (`Executive::open_block` / `apply_extrinsic` /
`close_block` / `execute_block`)

The two root commitments are abstract parameters: `otr` models
`ordered_trie_root` over the encoded-extrinsics list and `stRoot` models
`sp_io::storage::root` over the current store content.  A `none` result
models a panic (`expect`/`assert_eq`), which aborts the block attempt. -/

/-- `sp_runtime` generic header.  Modelled from the spec: the concrete header
type and its codec live in `sp_runtime` (an external collaborator); the spec
requires a parent link, a height, and the two root commitments. -/
structure Header where
  parentHash : Nat
  number : Nat
  stateRoot : Nat
  extrinsicsRoot : Nat
deriving DecidableEq, Repr

/-- Modelled from the spec: fixed-width serialization of the external header
type (parent digest, `u32` height, the two root digests). -/
def Header.encode (h : Header) : Bytes :=
  h256LE h.parentHash ++ u32LE h.number ++ h256LE h.stateRoot ++ h256LE h.extrinsicsRoot

/-- Modelled from the spec: inverse of `Header.encode` on a byte stream. -/
def Header.decode (bs : Bytes) : Option (Header × Bytes) :=
  (readLE 32 bs).bind fun p1 =>
    (readLE 4 p1.2).bind fun p2 =>
      (readLE 32 p2.2).bind fun p3 =>
        (readLE 32 p3.2).map fun p4 => (⟨p1.1, p2.1, p3.1, p4.1⟩, p4.2)

/-- Header fields fit their machine widths. -/
abbrev HeaderWF (h : Header) : Prop :=
  h.parentHash < 2 ^ 256 ∧ h.number < 2 ^ 32 ∧
    h.stateRoot < 2 ^ 256 ∧ h.extrinsicsRoot < 2 ^ 256

/-- A block: a header plus its ordered extrinsics. -/
structure Block where
  header : Header
  extrinsics : List Transaction
deriving DecidableEq, Repr

/-- Decoding of one element of a `Vec<Vec<u8>>`: compact byte count, then
that many raw bytes. -/
def decBytesElem (bs : Bytes) : Option (Bytes × Bytes) :=
  (compactDec bs).bind fun p =>
    if p.1 ≤ p.2.length then some (p.2.take p.1, p.2.drop p.1) else none

/-- SCALE encoding of a `Vec<Vec<u8>>`. -/
def encBytesList (l : List Bytes) : Bytes :=
  encList encOpaqueVec l

/-- SCALE decoding of a `Vec<Vec<u8>>`. -/
def decBytesList (bs : Bytes) : Option (List Bytes × Bytes) :=
  decList decBytesElem bs

/-- The `get(EXTRINSIC_KEY).and_then(decode.ok).unwrap_or_default()` idiom. -/
def getAccumulatedExtrinsics (s : Storage) : List Bytes :=
  ((storage_get s EXTRINSIC_KEY).bind fun d => (decBytesList d).map Prod.fst).getD []

/-- `Executive::open_block`: store the in-progress header and the height. -/
def open_block (s : Storage) (header : Header) : Storage :=
  storage_set (storage_set s HEADER_KEY (Header.encode header))
    HEIGHT_KEY (u32LE header.number)

/-- `Executive::apply_extrinsic`: append the encoded extrinsic to the
transient accumulator, then apply the transaction; on rejection the append
has already happened and the error is surfaced. -/
def apply_extrinsic (hash : Bytes → Nat) (s : Storage) (extrinsic : Transaction) :
    Storage × Option UtxoError :=
  let extrinsics := getAccumulatedExtrinsics s ++ [Transaction.encode extrinsic]
  let s1 := storage_set s EXTRINSIC_KEY (encBytesList extrinsics)
  match apply_tuxedo_transaction hash s1 extrinsic with
  | .ok s2 => (s2, none)
  | .error e => (s1, some e)

/-- `Executive::close_block`: read back the header (a decode failure is the
`expect` panic, i.e. `none`), clear the header slot, compute the ordered root
of the accumulated extrinsics, clear the accumulator slot, set both header
roots — the state root read from the store after the clears. -/
def close_block (otr : List Bytes → Nat) (stRoot : Storage → Nat) (s : Storage) :
    Option (Header × Storage) :=
  match (storage_get s HEADER_KEY).bind Header.decode with
  | none => none
  | some (header, _) =>
    some ({ header with
              extrinsicsRoot := otr (getAccumulatedExtrinsics (storage_clear s HEADER_KEY)),
              stateRoot := stRoot
                (storage_clear (storage_clear s HEADER_KEY) EXTRINSIC_KEY) },
          storage_clear (storage_clear s HEADER_KEY) EXTRINSIC_KEY)

/-- The stubbed inherent classifier (`extrinsic.checker.is_inherent()` is
commented out; the flag is hardwired `false`). -/
def is_inherent (_ : Transaction) : Bool := false

/-- The extrinsic loop of `Executive::execute_block`, threading the
`finished_with_opening_inherents` flag; `none` models a panic (either the
inherent-ordering panic or an application error). -/
def applyLoop (hash : Bytes → Nat) : Storage → Bool → List Transaction → Option Storage
  | s, _, [] => some s
  | s, finished_with_opening_inherents, extrinsic :: rest =>
    let current_tx_is_inherent := is_inherent extrinsic
    if current_tx_is_inherent && finished_with_opening_inherents then none
    else
      let flag :=
        if !current_tx_is_inherent && !finished_with_opening_inherents then true
        else finished_with_opening_inherents
      match apply_tuxedo_transaction hash s extrinsic with
      | .ok s' => applyLoop hash s' flag rest
      | .error _ => none

/-- `Executive::execute_block`: store header and height, apply every
extrinsic (any rejection panics), clear the header slot, then assert the
recomputed state root and extrinsics root against the header's declared
values; a mismatch is the `assert_eq` panic, i.e. `none`. -/
def execute_block (hash : Bytes → Nat) (otr : List Bytes → Nat)
    (stRoot : Storage → Nat) (s : Storage) (b : Block) : Option Storage :=
  let s1 := storage_set s HEADER_KEY (Header.encode b.header)
  let s2 := storage_set s1 HEIGHT_KEY (u32LE b.header.number)
  (applyLoop hash s2 false b.extrinsics).bind fun s3 =>
    let s4 := storage_clear s3 HEADER_KEY
    if b.header.stateRoot = stRoot s4 then
      if b.header.extrinsicsRoot = otr (b.extrinsics.map Transaction.encode) then
        some s4
      else none
    else none

/-! ## The runtime executive (`runtime/src/executive.rs`)

A stripped copy of the tuxedo-core executive: its validator performs no
duplicate or pre-existing-output check and treats every input as missing,
and its applier performs no validation at all before writing storage. -/

/-- `utils::types::PallasError` — a single custom numeric error channel. -/
inductive PallasError
  | Error (n : Nat)
deriving DecidableEq, Repr

namespace Runtime

/-- Runtime `Executive::validate_tuxedo_transaction`: pushes the encoded
`OutputRef` of every input into `missing_inputs` without peeking storage,
computes `provides`, and always returns `Ok`. -/
def validate_tuxedo_transaction (hash : Bytes → Nat) (t : Transaction) :
    Except PallasError ValidTransaction :=
  let missing_inputs := t.inputs.map (fun input => OutputRef.encode input.output_ref)
  let tx_hash := hash (Transaction.encode t)
  let provides := (List.range t.outputs.length).map
    (fun index => OutputRef.encode ⟨tx_hash, index⟩)
  if !missing_inputs.isEmpty then
    .ok ⟨missing_inputs, provides, 0, longevityMax, true⟩
  else
    .ok ⟨[], provides, 0, longevityMax, true⟩

/-- Runtime `Executive::update_storage` — same body as the tuxedo-core one,
over `utils::storage`'s consume/store. -/
def update_storage (hash : Bytes → Nat) (s : Storage) (t : Transaction) : Storage :=
  storeOutputs (hash (Transaction.encode t)) (consumeInputs s t.inputs) 0 t.outputs

/-- Runtime `Executive::apply_tuxedo_transaction`: commits the storage
changes immediately and returns `Ok(())` — no validation call, no
missing-input check. -/
def apply_tuxedo_transaction (hash : Bytes → Nat) (s : Storage) (t : Transaction) :
    Except PallasError Storage :=
  .ok (update_storage hash s t)

end Runtime

/-! ## Genesis (`runtime/src/genesis.rs`)

The genesis transaction type re-exported by the runtime crate comes from
`griffin_core` whose source is not in the repository snapshot; its shape is
taken from the genesis construction site (`payload`/`owner` fields) and the
spec's data model, and its codec from the spec's framing contract. -/

/-- Modelled from the spec: the runtime's genesis `Output` — an
application-defined payload (a `u64` amount here) plus an `H256` owner, as
constructed in `development_genesis_transactions`. -/
structure GOutput where
  payload : Nat
  owner : Nat
deriving DecidableEq, Repr

/-- Modelled from the spec: serialization of the genesis output
(8 LE payload bytes, then the 32 owner digest bytes). -/
def GOutput.encode (o : GOutput) : Bytes :=
  u64LE o.payload ++ h256LE o.owner

/-- Modelled from the spec: the genesis `Transaction` — ordered inputs and
outputs, as constructed in `development_genesis_transactions`. -/
structure GTransaction where
  inputs : List Input
  outputs : List GOutput
deriving DecidableEq, Repr

/-- Modelled from the spec: the transaction codec frames the body as an
opaque blob — a compact prefix holding the summed encoded length of the two
field vectors, followed by those two byte strings. -/
def GTransaction.encode (t : GTransaction) : Bytes :=
  let inputs := encList Input.encode t.inputs
  let outputs := encList GOutput.encode t.outputs
  compactEnc ((inputs.length + outputs.length) % 2 ^ 32) ++ inputs ++ outputs

/-- The 32 bytes of `SHAWN_PUB_KEY`
(`d2bf4b844dfefd6772a8843e669f943408966a977e3ae2af1dd78e0f55f4df67`). -/
def SHAWN_PUB_KEY_BYTES : Bytes :=
  [0xd2, 0xbf, 0x4b, 0x84, 0x4d, 0xfe, 0xfd, 0x67,
   0x72, 0xa8, 0x84, 0x3e, 0x66, 0x9f, 0x94, 0x34,
   0x08, 0x96, 0x6a, 0x97, 0x7e, 0x3a, 0xe2, 0xaf,
   0x1d, 0xd7, 0x8e, 0x0f, 0x55, 0xf4, 0xdf, 0x67]

/-- The owner digest as a natural (little-endian reading of the key bytes). -/
def shawnOwner : Nat := bytesToNatLE SHAWN_PUB_KEY_BYTES

namespace Genesis

/-- `development_genesis_transactions`: one inputless transaction with a
single output of value 314 owned by Shawn's key. -/
def development_genesis_transactions : List GTransaction :=
  [{ inputs := [], outputs := [{ payload := 314, owner := shawnOwner }] }]

/-- The inner output loop of `genesis::build`: raw `storage::set` of each
encoded output at its derived reference. -/
def storeGOutputs (tx_hash : Nat) : Storage → Nat → List GOutput → Storage
  | s, _, [] => s
  | s, index, utxo :: rest =>
    storeGOutputs tx_hash
      (storage_set s (OutputRef.encode ⟨tx_hash, index⟩) (GOutput.encode utxo))
      (index + 1) rest

/-- The per-transaction loop of `genesis::build`: `ensure!` no inputs, then
store every output. -/
def applyTransactions (hash : Bytes → Nat) : Storage → List GTransaction → Except String Storage
  | s, [] => .ok s
  | s, tx :: rest =>
    if tx.inputs.isEmpty then
      applyTransactions hash (storeGOutputs (hash (GTransaction.encode tx)) s 0 tx.outputs) rest
    else
      .error "Genesis transactions must not have any inputs."

/-- `genesis::build`: write the full genesis transaction list into the
transient extrinsics slot, initialize the height slot to zero, then apply
every genesis transaction. -/
def build (hash : Bytes → Nat) (s : Storage) (genesis_transactions : List GTransaction) :
    Except String Storage :=
  let s1 := storage_set s EXTRINSIC_KEY (encList GTransaction.encode genesis_transactions)
  let s2 := storage_set s1 HEIGHT_KEY (u32LE 0)
  applyTransactions hash s2 genesis_transactions

end Genesis

/-- A key of the UTXO-set portion of the shared store: the image of
`OutputRef.encode` is exactly the 36-byte strings. -/
def isUtxoKey (k : Bytes) : Bool :=
  k.length == 36 && k.all (fun b => decide (b < 256))

/-- The UTXO set proper inside the shared store: the entries at
`OutputRef`-encoded keys. -/
def utxoEntries (s : Storage) : Storage :=
  s.filter (fun kv => isUtxoKey kv.1)

/-! # Theorems -/

/-! ## Byte-level codec lemmas -/

theorem natLE_length (k n : Nat) : (natLE k n).length = k := by
  induction k generalizing n with
  | zero => rfl
  | succ k ih => simp [natLE, ih]

theorem natLE_mem_lt (k n : Nat) : ∀ b ∈ natLE k n, b < 256 := by
  induction k generalizing n with
  | zero => simp [natLE]
  | succ k ih =>
    intro b hb
    simp only [natLE, List.mem_cons] at hb
    rcases hb with h | h
    · omega
    · exact ih _ b h

/-- Positional decomposition of a remainder: low byte plus 256 times the rest. -/
theorem mod_mul_decomp (n k : Nat) :
    n % (256 * 256 ^ k) = n % 256 + 256 * (n / 256 % 256 ^ k) := by
  conv_lhs => rw [← Nat.div_add_mod (n % (256 * 256 ^ k)) 256]
  rw [Nat.mod_mul_right_div_self, Nat.mod_mod_of_dvd n ⟨256 ^ k, rfl⟩]
  ring

theorem bytesToNatLE_natLE (k n : Nat) : bytesToNatLE (natLE k n) = n % 256 ^ k := by
  induction k generalizing n with
  | zero => simp [natLE, bytesToNatLE, Nat.mod_one]
  | succ k ih =>
    simp only [natLE, bytesToNatLE, ih]
    rw [pow_succ', mod_mul_decomp]

theorem natLE_congr (k : Nat) {n m : Nat} (h : n % 256 ^ k = m % 256 ^ k) :
    natLE k n = natLE k m := by
  induction k generalizing n m with
  | zero => rfl
  | succ k ih =>
    rw [pow_succ', mod_mul_decomp, mod_mul_decomp] at h
    have key : ∀ a b a' b' : Nat, a < 256 → a' < 256 →
        a + 256 * b = a' + 256 * b' → a = a' ∧ b = b' := by
      intro a b a' b' h1 h2 h3
      omega
    obtain ⟨h1, h2⟩ := key _ _ _ _ (Nat.mod_lt _ (by norm_num)) (Nat.mod_lt _ (by norm_num)) h
    simp only [natLE]
    rw [h1, ih h2]

theorem natLE_inj (k : Nat) {n m : Nat} (hn : n < 256 ^ k) (hm : m < 256 ^ k)
    (h : natLE k n = natLE k m) : n = m := by
  have := congrArg bytesToNatLE h
  rw [bytesToNatLE_natLE, bytesToNatLE_natLE, Nat.mod_eq_of_lt hn, Nat.mod_eq_of_lt hm] at this
  exact this

theorem readLE_append (k : Nat) (pre tl : Bytes) (h : pre.length = k) :
    readLE k (pre ++ tl) = some (bytesToNatLE pre, tl) := by
  subst h
  simp [readLE, List.take_left, List.drop_left]

theorem compactDec_compactEnc (n : Nat) (tl : Bytes) (h : n < 2 ^ 32) :
    compactDec (compactEnc n ++ tl) = some (n, tl) := by
  unfold compactEnc
  by_cases h6 : n < 2 ^ 6
  · rw [if_pos h6]
    simp only [List.cons_append, List.nil_append, compactDec]
    rw [if_pos (by omega)]
    have hq : n * 4 / 4 = n := by omega
    rw [hq]
  · rw [if_neg h6]
    by_cases h14 : n < 2 ^ 14
    · rw [if_pos h14]
      have hr := readLE_append 1 [(n * 4 + 1) / 256 % 256] tl rfl
      simp only [List.cons_append, List.nil_append] at hr
      simp only [natLE, compactDec, List.cons_append, List.nil_append]
      rw [if_neg (by omega), if_pos (by omega), hr]
      simp only [bytesToNatLE, Option.map_some', Option.some.injEq, Prod.mk.injEq, and_true]
      omega
    · rw [if_neg h14]
      by_cases h30 : n < 2 ^ 30
      · rw [if_pos h30]
        have hr := readLE_append 3 [(n * 4 + 2) / 256 % 256, (n * 4 + 2) / 256 / 256 % 256,
          (n * 4 + 2) / 256 / 256 / 256 % 256] tl rfl
        simp only [List.cons_append, List.nil_append] at hr
        simp only [natLE, compactDec, List.cons_append, List.nil_append]
        rw [if_neg (by omega), if_neg (by omega), if_pos (by omega), hr]
        simp only [bytesToNatLE, Option.map_some', Option.some.injEq, Prod.mk.injEq, and_true]
        omega
      · rw [if_neg h30]
        simp only [compactDec, List.cons_append, u32LE]
        rw [if_neg (by omega), if_neg (by omega), if_neg (by omega)]
        have hq : (3 : Nat) / 4 + 4 = 4 := by norm_num
        rw [hq, readLE_append 4 _ _ (natLE_length 4 n), bytesToNatLE_natLE]
        have hlt : n < 256 ^ 4 := by
          have : (256 : Nat) ^ 4 = 2 ^ 32 := by norm_num
          omega
        rw [Nat.mod_eq_of_lt hlt]

/-! ## Storage lemmas -/

theorem storage_get_clear_self (s : Storage) (k : Bytes) :
    storage_get (storage_clear s k) k = none := by
  induction s with
  | nil => rfl
  | cons p rest ih =>
    obtain ⟨k', v⟩ := p
    simp only [storage_clear]
    by_cases hk : k' = k
    · rw [if_pos hk]
      exact ih
    · rw [if_neg hk]
      simp only [storage_get, if_neg hk]
      exact ih

theorem storage_get_clear_ne (s : Storage) {k k' : Bytes} (h : k' ≠ k) :
    storage_get (storage_clear s k) k' = storage_get s k' := by
  induction s with
  | nil => rfl
  | cons p rest ih =>
    obtain ⟨k0, v⟩ := p
    simp only [storage_clear, storage_get]
    by_cases hk : k0 = k
    · rw [if_pos hk, if_neg (by rw [hk]; exact fun hc => h hc.symm)]
      exact ih
    · rw [if_neg hk]
      simp only [storage_get]
      by_cases hk' : k0 = k'
      · rw [if_pos hk', if_pos hk']
      · rw [if_neg hk', if_neg hk']
        exact ih

theorem storage_get_set_self (s : Storage) (k v : Bytes) :
    storage_get (storage_set s k v) k = some v := by
  simp [storage_set, storage_get]

theorem storage_get_set_ne (s : Storage) {k k' : Bytes} (v : Bytes) (h : k' ≠ k) :
    storage_get (storage_set s k v) k' = storage_get s k' := by
  have hne : k ≠ k' := fun hc => h hc.symm
  simp only [storage_set, storage_get, if_neg hne]
  exact storage_get_clear_ne s h

/-! ## Decode/encode roundtrips -/

theorem Output_decode_encode (o : Output) (tl : Bytes) (h : o.coin < 2 ^ 64) :
    Output.decode (Output.encode o ++ tl) = some (o, tl) := by
  have h8 : o.coin < 256 ^ 8 := by
    have : (256 : Nat) ^ 8 = 2 ^ 64 := by norm_num
    omega
  simp only [Output.decode, Output.encode, u64LE,
    readLE_append 8 _ _ (natLE_length 8 o.coin), bytesToNatLE_natLE,
    Nat.mod_eq_of_lt h8, Option.map_some']

theorem OutputRef_decode_encode (r : OutputRef) (tl : Bytes)
    (hh : r.tx_hash < 2 ^ 256) (hi : r.index < 2 ^ 32) :
    OutputRef.decode (OutputRef.encode r ++ tl) = some (r, tl) := by
  have h32 : r.tx_hash < 256 ^ 32 := by
    have : (256 : Nat) ^ 32 = 2 ^ 256 := by norm_num
    omega
  have h4 : r.index < 256 ^ 4 := by
    have : (256 : Nat) ^ 4 = 2 ^ 32 := by norm_num
    omega
  simp only [OutputRef.decode, OutputRef.encode, h256LE, u32LE, List.append_assoc,
    readLE_append 32 _ _ (natLE_length 32 r.tx_hash), Option.some_bind,
    readLE_append 4 _ _ (natLE_length 4 r.index), bytesToNatLE_natLE,
    Nat.mod_eq_of_lt h32, Nat.mod_eq_of_lt h4, Option.map_some']

theorem Input_decode_encode (i : Input) (tl : Bytes)
    (hh : i.output_ref.tx_hash < 2 ^ 256) (hi : i.output_ref.index < 2 ^ 32) :
    Input.decode (Input.encode i ++ tl) = some (i, tl) := by
  simp only [Input.decode, Input.encode, OutputRef_decode_encode i.output_ref tl hh hi,
    Option.map_some']

theorem decN_flatten {α : Type} (dec : Bytes → Option (α × Bytes)) (enc : α → Bytes)
    (l : List α) (tl : Bytes)
    (h : ∀ a ∈ l, ∀ tl', dec (enc a ++ tl') = some (a, tl')) :
    decN dec l.length ((l.map enc).flatten ++ tl) = some (l, tl) := by
  induction l with
  | nil => simp [decN]
  | cons a l ih =>
    simp only [List.map_cons, List.flatten_cons, List.length_cons, List.append_assoc, decN]
    rw [h a (List.mem_cons_self a l), Option.some_bind]
    rw [ih (fun b hb tl' => h b (List.mem_cons_of_mem a hb) tl')]
    rfl

theorem decList_encList {α : Type} (dec : Bytes → Option (α × Bytes)) (enc : α → Bytes)
    (l : List α) (tl : Bytes) (hlen : l.length < 2 ^ 32)
    (h : ∀ a ∈ l, ∀ tl', dec (enc a ++ tl') = some (a, tl')) :
    decList dec (encList enc l ++ tl) = some (l, tl) := by
  simp only [decList, encList, List.append_assoc,
    compactDec_compactEnc l.length _ hlen, Option.some_bind]
  exact decN_flatten dec enc l tl h

/-- Encoding is injective on well-formed inputs (decoding recovers the value). -/
theorem Input_encode_inj {a b : Input}
    (ha1 : a.output_ref.tx_hash < 2 ^ 256) (ha2 : a.output_ref.index < 2 ^ 32)
    (hb1 : b.output_ref.tx_hash < 2 ^ 256) (hb2 : b.output_ref.index < 2 ^ 32)
    (h : Input.encode a = Input.encode b) : a = b := by
  have da := Input_decode_encode a [] ha1 ha2
  have db := Input_decode_encode b [] hb1 hb2
  rw [h] at da
  rw [da, Option.some.injEq, Prod.mk.injEq] at db
  exact db.1

/-- A list has as many distinct elements as elements exactly when it has no
repeats (the `BTreeSet`-cardinality idiom of the duplicate-input check). -/
theorem dedup_length_eq_iff {α : Type} [DecidableEq α] (l : List α) :
    l.dedup.length = l.length ↔ l.Nodup := by
  constructor
  · intro h
    have heq := (List.dedup_sublist l).eq_of_length h
    rw [← heq]
    exact List.nodup_dedup l
  · intro h
    rw [List.dedup_eq_self.mpr h]

/-- C9: `Transaction::encode` frames the transaction as an opaque
length-prefixed blob: a compact prefix holding the sum of the encoded lengths
of the inputs vector and the outputs vector, followed by exactly those two
byte strings — i.e. the same bytes a SCALE `Vec<u8>` holding the
concatenation would produce, not a two-field struct encoding.  The summed
length fitting in `u32` is the `as u32` cast's no-overflow side condition. -/
theorem transaction_encode_framing (t : Transaction)
    (h : (encList Input.encode t.inputs).length + (encList Output.encode t.outputs).length
          < 2 ^ 32) :
    Transaction.encode t =
      encOpaqueVec (encList Input.encode t.inputs ++ encList Output.encode t.outputs) := by
  simp only [Transaction.encode, encOpaqueVec, List.length_append,
    Nat.mod_eq_of_lt h, List.append_assoc]

/-- Witness for C9 at a one-input, one-output transaction. -/
theorem transaction_encode_framing_witness :
    Transaction.encode ⟨[⟨⟨1, 0⟩⟩], [⟨5⟩]⟩ =
      encOpaqueVec (encList Input.encode [⟨⟨1, 0⟩⟩] ++ encList Output.encode [⟨5⟩]) :=
  transaction_encode_framing ⟨[⟨⟨1, 0⟩⟩], [⟨5⟩]⟩ (by decide)

/-- C10: decoding is a left inverse of encoding on `Transaction` — the
decoder skips the unchecked length prefix and recovers the two field vectors
exactly, consuming the whole encoding.  `TransactionWF` carries the machine
ranges automatic for the Rust field types. -/
theorem transaction_decode_encode (t : Transaction) (hwf : TransactionWF t) :
    Transaction.decode (Transaction.encode t) = some (t, []) := by
  obtain ⟨hin, hout, hlin, hlout⟩ := hwf
  have htot :
      ((encList Input.encode t.inputs).length + (encList Output.encode t.outputs).length)
        % 2 ^ 32 < 2 ^ 32 := Nat.mod_lt _ (by norm_num)
  have hdecI : ∀ a ∈ t.inputs, ∀ tl', Input.decode (Input.encode a ++ tl') = some (a, tl') :=
    fun a ha tl' => Input_decode_encode a tl' (hin a ha).1 (hin a ha).2
  have hdecO : ∀ a ∈ t.outputs, ∀ tl', Output.decode (Output.encode a ++ tl') = some (a, tl') :=
    fun a ha tl' => Output_decode_encode a tl' (hout a ha)
  have hstep2 : encList Input.encode t.inputs ++ encList Output.encode t.outputs =
      encList Input.encode t.inputs ++ (encList Output.encode t.outputs ++ []) := by
    rw [List.append_nil]
  simp only [Transaction.decode, Transaction.encode, List.append_assoc,
    compactDec_compactEnc _ _ htot, Option.some_bind]
  rw [hstep2, decList_encList Input.decode Input.encode t.inputs _ hlin hdecI,
    Option.some_bind, decList_encList Output.decode Output.encode t.outputs [] hlout hdecO]
  rfl

/-- Witness for C10 at a one-input, one-output transaction. -/
theorem transaction_decode_encode_witness :
    Transaction.decode (Transaction.encode ⟨[⟨⟨1, 0⟩⟩], [⟨5⟩]⟩) =
      some (⟨[⟨⟨1, 0⟩⟩], [⟨5⟩]⟩, []) :=
  transaction_decode_encode ⟨[⟨⟨1, 0⟩⟩], [⟨5⟩]⟩ (by refine ⟨?_, ?_, ?_, ?_⟩ <;> decide)

/-- C2: the tuxedo-core validator rejects with `DuplicateInput` exactly the
transactions whose input sequence has a repeat under structural equality.
The well-formedness hypothesis carries the `H256`/`u32` field ranges under
which encoded equality (what the `BTreeSet` compares) coincides with
structural equality. -/
theorem validator_duplicate_input_iff (hash : Bytes → Nat) (s : Storage) (t : Transaction)
    (hwf : InputsWF t) :
    validate_tuxedo_transaction hash s t = .error .DuplicateInput ↔ ¬ t.inputs.Nodup := by
  have hlen : (t.inputs.map Input.encode).length = t.inputs.length := List.length_map _ _
  have hinj : ∀ x ∈ t.inputs, ∀ y ∈ t.inputs, Input.encode x = Input.encode y → x = y :=
    fun x hx y hy hxy =>
      Input_encode_inj (hwf x hx).1 (hwf x hx).2 (hwf y hy).1 (hwf y hy).2 hxy
  constructor
  · intro herr hnd
    have hmapnd : (t.inputs.map Input.encode).Nodup := List.Nodup.map_on hinj hnd
    have hcond : (t.inputs.map Input.encode).dedup.length = t.inputs.length := by
      rw [(dedup_length_eq_iff _).mpr hmapnd, hlen]
    unfold validate_tuxedo_transaction at herr
    rw [if_pos hcond] at herr
    split at herr
    · split at herr <;> exact Except.noConfusion herr
    · exact absurd (Except.error.inj herr) (by simp)
  · intro hnnd
    have hcond : ¬ (t.inputs.map Input.encode).dedup.length = t.inputs.length := by
      intro he
      have hmapnd : (t.inputs.map Input.encode).Nodup := by
        rw [← hlen] at he
        exact (dedup_length_eq_iff _).mp he
      exact hnnd (List.Nodup.of_map _ hmapnd)
    unfold validate_tuxedo_transaction
    rw [if_neg hcond]

/-- Witness for C2: a transaction repeating one input is rejected with
`DuplicateInput`. -/
theorem validator_duplicate_input_iff_witness :
    validate_tuxedo_transaction (fun _ => 0) [] ⟨[⟨⟨1, 0⟩⟩, ⟨⟨1, 0⟩⟩], []⟩ =
      .error .DuplicateInput :=
  (validator_duplicate_input_iff (fun _ => 0) [] ⟨[⟨⟨1, 0⟩⟩, ⟨⟨1, 0⟩⟩], []⟩
    (by decide)).mpr (by decide)

/-- C1 counterexample: a transaction whose (duplicated) input is absent from
the UTXO set.  The claim predicts `Ok` with non-empty `requires` from the
validator and `MissingInput` from the applier; the code rejects both with
`DuplicateInput`, because the duplicate-input check runs first. -/
theorem missing_input_claim_counterexample :
    ((⟨[⟨⟨1, 0⟩⟩, ⟨⟨1, 0⟩⟩], []⟩ : Transaction).inputs.any
        (fun input => (peek_utxo [] input.output_ref).isNone)) = true ∧
    validate_tuxedo_transaction (fun _ => 0) [] ⟨[⟨⟨1, 0⟩⟩, ⟨⟨1, 0⟩⟩], []⟩ =
      .error .DuplicateInput ∧
    apply_tuxedo_transaction (fun _ => 0) [] ⟨[⟨⟨1, 0⟩⟩, ⟨⟨1, 0⟩⟩], []⟩ =
      .error .DuplicateInput :=
  ⟨rfl, rfl, rfl⟩

/-- C1 (amended): for a transaction that passes the duplicate-input and
pre-existing-output checks, if at least one input is absent from the UTXO
set then the validator returns `Ok` whose `requires` lists the encoded
`OutputRef` of exactly the absent inputs (non-empty), and the applier —
which re-runs the validator — rejects with `MissingInput` (and, returning
an error, commits nothing). -/
theorem validator_missing_inputs_pool_ok (hash : Bytes → Nat) (s : Storage) (t : Transaction)
    (hwf : InputsWF t) (hnd : t.inputs.Nodup)
    (hpre : ∀ index < t.outputs.length,
      peek_utxo s ⟨hash (Transaction.encode t), index⟩ = none)
    (hmiss : ∃ input ∈ t.inputs, peek_utxo s input.output_ref = none) :
    validate_tuxedo_transaction hash s t =
      .ok ⟨missingInputs s t, providesList hash t, 0, longevityMax, true⟩ ∧
    missingInputs s t ≠ [] ∧
    apply_tuxedo_transaction hash s t = .error .MissingInput := by
  have hinj : ∀ x ∈ t.inputs, ∀ y ∈ t.inputs, Input.encode x = Input.encode y → x = y :=
    fun x hx y hy hxy =>
      Input_encode_inj (hwf x hx).1 (hwf x hx).2 (hwf y hy).1 (hwf y hy).2 hxy
  have hcond : (t.inputs.map Input.encode).dedup.length = t.inputs.length := by
    rw [(dedup_length_eq_iff _).mpr (List.Nodup.map_on hinj hnd), List.length_map]
  have hall : ((List.range t.outputs.length).all
      (fun index => (peek_utxo s ⟨hash (Transaction.encode t), index⟩).isNone)) = true := by
    rw [List.all_eq_true]
    intro i hi
    rw [List.mem_range] at hi
    rw [hpre i hi]
    rfl
  have hne : missingInputs s t ≠ [] := by
    obtain ⟨input, hmem, hnone⟩ := hmiss
    intro hnil
    unfold missingInputs at hnil
    rw [List.map_eq_nil_iff] at hnil
    have := List.filter_eq_nil_iff.mp hnil input hmem
    rw [hnone] at this
    exact this rfl
  have hempty : ¬ ((missingInputs s t).isEmpty = true) := by
    rw [List.isEmpty_iff]
    exact hne
  have hv : validate_tuxedo_transaction hash s t =
      .ok ⟨missingInputs s t, providesList hash t, 0, longevityMax, true⟩ := by
    unfold validate_tuxedo_transaction
    rw [if_pos hcond, if_pos hall, if_neg hempty]
  refine ⟨hv, hne, ?_⟩
  unfold apply_tuxedo_transaction
  rw [hv]
  simp only [Except.bind]
  rw [if_neg hempty]

/-- Witness for the amended C1: a transaction spending a single absent input. -/
theorem validator_missing_inputs_pool_ok_witness :
    validate_tuxedo_transaction (fun _ => 0) [] ⟨[⟨⟨1, 0⟩⟩], []⟩ =
      .ok ⟨missingInputs [] ⟨[⟨⟨1, 0⟩⟩], []⟩,
           providesList (fun _ => 0) ⟨[⟨⟨1, 0⟩⟩], []⟩, 0, longevityMax, true⟩ ∧
    missingInputs [] ⟨[⟨⟨1, 0⟩⟩], []⟩ ≠ [] ∧
    apply_tuxedo_transaction (fun _ => 0) [] ⟨[⟨⟨1, 0⟩⟩], []⟩ = .error .MissingInput :=
  validator_missing_inputs_pool_ok (fun _ => 0) [] ⟨[⟨⟨1, 0⟩⟩], []⟩
    (by decide) (by decide)
    (fun index h => absurd h (Nat.not_lt_zero index))
    ⟨⟨⟨1, 0⟩⟩, by decide, rfl⟩

/-- C3 counterexample: a transaction with a repeated input whose derived
output reference (index 0 under the constant-zero digest) is already in the
UTXO set.  The claim predicts `PreExistingOutput`; the code rejects with
`DuplicateInput`, because the duplicate-input check runs first. -/
theorem pre_existing_output_claim_counterexample :
    (∃ index, index < (⟨[⟨⟨1, 0⟩⟩, ⟨⟨1, 0⟩⟩], [⟨5⟩]⟩ : Transaction).outputs.length ∧
      (peek_utxo [(OutputRef.encode ⟨0, 0⟩, Output.encode ⟨5⟩)]
        ⟨(fun _ : Bytes => 0)
            (Transaction.encode ⟨[⟨⟨1, 0⟩⟩, ⟨⟨1, 0⟩⟩], [⟨5⟩]⟩), index⟩).isSome = true) ∧
    validate_tuxedo_transaction (fun _ => 0) [(OutputRef.encode ⟨0, 0⟩, Output.encode ⟨5⟩)]
      ⟨[⟨⟨1, 0⟩⟩, ⟨⟨1, 0⟩⟩], [⟨5⟩]⟩ = .error .DuplicateInput :=
  ⟨⟨0, by decide, rfl⟩, rfl⟩

/-- C3 (amended): for a transaction with no repeated input, if some output
index combined with the hash of the transaction's canonical encoding derives
an `OutputRef` already present in the UTXO set, the validator rejects with
`PreExistingOutput`. -/
theorem validator_pre_existing_output (hash : Bytes → Nat) (s : Storage) (t : Transaction)
    (hwf : InputsWF t) (hnd : t.inputs.Nodup)
    (hpre : ∃ index < t.outputs.length,
      (peek_utxo s ⟨hash (Transaction.encode t), index⟩).isSome = true) :
    validate_tuxedo_transaction hash s t = .error .PreExistingOutput := by
  have hinj : ∀ x ∈ t.inputs, ∀ y ∈ t.inputs, Input.encode x = Input.encode y → x = y :=
    fun x hx y hy hxy =>
      Input_encode_inj (hwf x hx).1 (hwf x hx).2 (hwf y hy).1 (hwf y hy).2 hxy
  have hcond : (t.inputs.map Input.encode).dedup.length = t.inputs.length := by
    rw [(dedup_length_eq_iff _).mpr (List.Nodup.map_on hinj hnd), List.length_map]
  have hall : ¬ (((List.range t.outputs.length).all
      (fun index => (peek_utxo s ⟨hash (Transaction.encode t), index⟩).isNone)) = true) := by
    obtain ⟨index, hlt, hsome⟩ := hpre
    rw [List.all_eq_true]
    intro hforall
    have := hforall index (List.mem_range.mpr hlt)
    rw [Option.isNone_iff_eq_none] at this
    rw [this] at hsome
    exact Bool.noConfusion hsome
  unfold validate_tuxedo_transaction
  rw [if_pos hcond, if_neg hall]

/-- Witness for the amended C3: an inputless transaction whose derived
output reference is already stored. -/
theorem validator_pre_existing_output_witness :
    validate_tuxedo_transaction (fun _ => 0)
      [(OutputRef.encode ⟨0, 0⟩, Output.encode ⟨5⟩)] ⟨[], [⟨7⟩]⟩ =
      .error .PreExistingOutput :=
  validator_pre_existing_output (fun _ => 0)
    [(OutputRef.encode ⟨0, 0⟩, Output.encode ⟨5⟩)] ⟨[], [⟨7⟩]⟩
    (by decide) (by decide) ⟨0, by decide, rfl⟩

/-! ## Storage effects of `update_storage` -/

theorem consumeInputs_cons (s : Storage) (i : Input) (l : List Input) :
    consumeInputs s (i :: l) =
      consumeInputs (storage_clear s (OutputRef.encode i.output_ref)) l := rfl

theorem storage_get_consumeInputs_none (l : List Input) (s : Storage) {k : Bytes}
    (h : storage_get s k = none) : storage_get (consumeInputs s l) k = none := by
  induction l generalizing s with
  | nil => exact h
  | cons i l ih =>
    rw [consumeInputs_cons]
    apply ih
    by_cases hk : k = OutputRef.encode i.output_ref
    · rw [hk]
      exact storage_get_clear_self s _
    · rw [storage_get_clear_ne s hk]
      exact h

theorem storage_get_consumeInputs_of_mem (l : List Input) (s : Storage) {input : Input}
    (h : input ∈ l) :
    storage_get (consumeInputs s l) (OutputRef.encode input.output_ref) = none := by
  induction l generalizing s with
  | nil => exact absurd h (List.not_mem_nil input)
  | cons i l ih =>
    rw [consumeInputs_cons]
    rcases List.mem_cons.mp h with heq | hmem
    · subst heq
      exact storage_get_consumeInputs_none l _ (storage_get_clear_self s _)
    · exact ih _ hmem

theorem storage_get_consumeInputs_of_forall (l : List Input) (s : Storage) {k : Bytes}
    (h : ∀ input ∈ l, OutputRef.encode input.output_ref ≠ k) :
    storage_get (consumeInputs s l) k = storage_get s k := by
  induction l generalizing s with
  | nil => rfl
  | cons i l ih =>
    rw [consumeInputs_cons, ih _ (fun input hm => h input (List.mem_cons_of_mem i hm))]
    exact storage_get_clear_ne s (fun hc => h i (List.mem_cons_self i l) hc.symm)

theorem outputRef_encode_length (r : OutputRef) : (OutputRef.encode r).length = 36 := by
  simp [OutputRef.encode, h256LE, u32LE, natLE_length]

/-- Two references sharing a digest encode equally only at equal (in-range)
indices. -/
theorem outputRef_encode_index_inj {H a b : Nat} (ha : a < 2 ^ 32) (hb : b < 2 ^ 32)
    (h : OutputRef.encode ⟨H, a⟩ = OutputRef.encode ⟨H, b⟩) : a = b := by
  unfold OutputRef.encode at h
  have h2 : u32LE a = u32LE b := List.append_cancel_left h
  have hp : (256 : Nat) ^ 4 = 2 ^ 32 := by norm_num
  exact natLE_inj 4 (by omega) (by omega) h2

theorem storage_get_storeOutputs_of_forall (H : Nat) (l : List Output) :
    ∀ (s : Storage) (i0 : Nat) {k : Bytes},
      (∀ j, i0 ≤ j → j < i0 + l.length → OutputRef.encode ⟨H, j⟩ ≠ k) →
      storage_get (storeOutputs H s i0 l) k = storage_get s k := by
  induction l with
  | nil => intro s i0 k h; rfl
  | cons o l ih =>
    intro s i0 k h
    simp only [storeOutputs]
    rw [ih _ (i0 + 1) (fun j h1 h2 => h j (by omega) (by simp only [List.length_cons]; omega))]
    exact storage_get_set_ne _ _
      (fun hc => h i0 (Nat.le_refl i0) (by simp only [List.length_cons]; omega) hc.symm)

theorem storage_get_storeOutputs_at (H : Nat) (l : List Output) :
    ∀ (s : Storage) (i0 : Nat), i0 + l.length ≤ 2 ^ 32 →
      ∀ (j : Nat) (hj : j < l.length),
        storage_get (storeOutputs H s i0 l) (OutputRef.encode ⟨H, i0 + j⟩) =
          some (Output.encode (l.get ⟨j, hj⟩)) := by
  induction l with
  | nil =>
    intro s i0 hbound j hj
    exact absurd hj (Nat.not_lt_zero j)
  | cons o l ih =>
    intro s i0 hbound j hj
    rw [List.length_cons] at hbound
    cases j with
    | zero =>
      simp only [storeOutputs, Nat.add_zero]
      rw [storage_get_storeOutputs_of_forall H l _ (i0 + 1) ?hne]
      · exact storage_get_set_self _ _ _
      case hne =>
        intro j h1 h2 heq
        have hji : j = i0 := outputRef_encode_index_inj (by omega) (by omega) heq
        omega
    | succ j =>
      simp only [storeOutputs]
      have harr : i0 + (j + 1) = (i0 + 1) + j := by omega
      rw [harr]
      exact ih (store_utxo s ⟨H, i0⟩ o) (i0 + 1) (by omega) j
        (by rw [List.length_cons] at hj; omega)

/-- C4: whenever the applier accepts a transaction, peeking each derived
output reference in the resulting storage returns exactly the corresponding
output, and peeking the reference of any consumed input returns nothing.
The two side conditions are the `u64`/`u32` machine ranges of the Rust
types (coin amounts and the `as u32` output index cast). -/
theorem apply_roundtrip (hash : Bytes → Nat) (s s' : Storage) (t : Transaction)
    (hout : OutputsWF t) (hlen : t.outputs.length ≤ 2 ^ 32)
    (happly : apply_tuxedo_transaction hash s t = .ok s') :
    (∀ j (hj : j < t.outputs.length),
      peek_utxo s' ⟨hash (Transaction.encode t), j⟩ = some (t.outputs.get ⟨j, hj⟩)) ∧
    (∀ input ∈ t.inputs, peek_utxo s' input.output_ref = none) := by
  unfold apply_tuxedo_transaction validate_tuxedo_transaction at happly
  by_cases h1 : (t.inputs.map Input.encode).dedup.length = t.inputs.length
  · rw [if_pos h1] at happly
    by_cases h2 : ((List.range t.outputs.length).all
        (fun index => (peek_utxo s ⟨hash (Transaction.encode t), index⟩).isNone)) = true
    · rw [if_pos h2] at happly
      by_cases h3 : ((missingInputs s t).isEmpty = true)
      · rw [if_pos h3] at happly
        simp only [Except.bind, List.isEmpty_nil, if_true] at happly
        have hs' : s' = update_storage hash s t := (Except.ok.inj happly).symm
        subst hs'
        have hpree : ∀ index, index < t.outputs.length →
            peek_utxo s ⟨hash (Transaction.encode t), index⟩ = none := by
          intro index hlt
          have := List.all_eq_true.mp h2 index (List.mem_range.mpr hlt)
          exact Option.isNone_iff_eq_none.mp this
        have hpresent : ∀ input ∈ t.inputs, peek_utxo s input.output_ref ≠ none := by
          intro input hmem hnone
          have hnil : missingInputs s t = [] := List.isEmpty_iff.mp h3
          unfold missingInputs at hnil
          rw [List.map_eq_nil_iff] at hnil
          have hno := List.filter_eq_nil_iff.mp hnil input hmem
          apply hno
          rw [hnone]
          rfl
        constructor
        · intro j hj
          have hget := storage_get_storeOutputs_at (hash (Transaction.encode t)) t.outputs
            (consumeInputs s t.inputs) 0 (by omega) j hj
          rw [Nat.zero_add] at hget
          unfold update_storage peek_utxo
          rw [hget]
          simp only [Option.some_bind]
          have hcoin : (t.outputs.get ⟨j, hj⟩).coin < 2 ^ 64 :=
            hout _ (List.get_mem t.outputs j hj)
          have hdec := Output_decode_encode (t.outputs.get ⟨j, hj⟩) [] hcoin
          rw [List.append_nil] at hdec
          rw [hdec]
          rfl
        · intro input hmem
          have hkne : ∀ j, 0 ≤ j → j < 0 + t.outputs.length →
              OutputRef.encode ⟨hash (Transaction.encode t), j⟩ ≠
                OutputRef.encode input.output_ref := by
            intro j _ hlt heq
            have hpj := hpree j (by omega)
            have hps := hpresent input hmem
            unfold peek_utxo at hpj hps
            rw [heq] at hpj
            exact hps hpj
          unfold update_storage peek_utxo
          rw [storage_get_storeOutputs_of_forall _ _ _ _ hkne,
            storage_get_consumeInputs_of_mem t.inputs s hmem]
          rfl
      · rw [if_neg h3] at happly
        simp only [Except.bind] at happly
        rw [if_neg h3] at happly
        exact Except.noConfusion happly
    · rw [if_neg h2] at happly
      simp only [Except.bind] at happly
      exact Except.noConfusion happly
  · rw [if_neg h1] at happly
    simp only [Except.bind] at happly
    exact Except.noConfusion happly

/-- Witness for C4: spending one present input and creating one output. -/
theorem apply_roundtrip_witness :
    peek_utxo (update_storage (fun _ => 0)
        [(OutputRef.encode ⟨1, 0⟩, Output.encode ⟨5⟩)] ⟨[⟨⟨1, 0⟩⟩], [⟨7⟩]⟩) ⟨0, 0⟩ =
      some ⟨7⟩ ∧
    peek_utxo (update_storage (fun _ => 0)
        [(OutputRef.encode ⟨1, 0⟩, Output.encode ⟨5⟩)] ⟨[⟨⟨1, 0⟩⟩], [⟨7⟩]⟩) ⟨1, 0⟩ = none := by
  have hmain := apply_roundtrip (fun _ => 0)
    [(OutputRef.encode ⟨1, 0⟩, Output.encode ⟨5⟩)]
    (update_storage (fun _ => 0)
      [(OutputRef.encode ⟨1, 0⟩, Output.encode ⟨5⟩)] ⟨[⟨⟨1, 0⟩⟩], [⟨7⟩]⟩)
    ⟨[⟨⟨1, 0⟩⟩], [⟨7⟩]⟩ (by decide) (by decide) rfl
  exact ⟨hmain.1 0 (by decide), hmain.2 ⟨⟨1, 0⟩⟩ (List.mem_cons_self _ _)⟩

/-- C5: `execute_block` returns normally only when the header's declared
state root equals the commitment recomputed over the post-application store
(with the transient header slot cleared) and its declared extrinsics root
equals the ordered accumulator recomputed over the encoded extrinsics in
block order; equivalently, on either mismatch the import aborts fatally
(`none`, the `assert_eq` panic) and never returns normally. -/
theorem execute_block_root_checks (hash : Bytes → Nat) (otr : List Bytes → Nat)
    (stRoot : Storage → Nat) (s : Storage) (b : Block) (s' : Storage)
    (h : execute_block hash otr stRoot s b = some s') :
    b.header.stateRoot = stRoot s' ∧
    b.header.extrinsicsRoot = otr (b.extrinsics.map Transaction.encode) := by
  simp only [execute_block] at h
  cases happ : applyLoop hash
      (storage_set (storage_set s HEADER_KEY (Header.encode b.header))
        HEIGHT_KEY (u32LE b.header.number)) false b.extrinsics with
  | none =>
    rw [happ] at h
    exact Option.noConfusion h
  | some s3 =>
    rw [happ] at h
    simp only [Option.some_bind] at h
    by_cases hst : b.header.stateRoot = stRoot (storage_clear s3 HEADER_KEY)
    · rw [if_pos hst] at h
      by_cases hex : b.header.extrinsicsRoot = otr (b.extrinsics.map Transaction.encode)
      · rw [if_pos hex] at h
        have hs' : s' = storage_clear s3 HEADER_KEY := (Option.some.inj h).symm
        subst hs'
        exact ⟨hst, hex⟩
      · rw [if_neg hex] at h
        exact Option.noConfusion h
    · rw [if_neg hst] at h
      exact Option.noConfusion h

/-- Witness for C5: an empty block whose declared roots match the abstract
commitments, so import returns normally and the roots agree. -/
theorem execute_block_root_checks_witness :
    (⟨⟨0, 0, 0, 0⟩, []⟩ : Block).header.stateRoot =
      (fun _ : Storage => 0) [(HEIGHT_KEY, u32LE 0)] ∧
    (⟨⟨0, 0, 0, 0⟩, []⟩ : Block).header.extrinsicsRoot =
      (fun _ : List Bytes => 0)
        ((⟨⟨0, 0, 0, 0⟩, []⟩ : Block).extrinsics.map Transaction.encode) :=
  execute_block_root_checks (fun _ => 0) (fun _ => 0) (fun _ => 0) []
    ⟨⟨0, 0, 0, 0⟩, []⟩ [(HEIGHT_KEY, u32LE 0)] rfl

/-- C6: the runtime executive's applier returns `Ok` for every transaction
whatsoever — it calls no validator, so any transaction (duplicate inputs,
absent inputs, anything) unconditionally commits `update_storage`'s writes
and is never rejected with a typed error. -/
theorem runtime_apply_unconditional (hash : Bytes → Nat) (s : Storage) (t : Transaction) :
    Runtime.apply_tuxedo_transaction hash s t = .ok (Runtime.update_storage hash s t) ∧
    ∀ e, Runtime.apply_tuxedo_transaction hash s t ≠ .error e :=
  ⟨rfl, fun _ h => Except.noConfusion h⟩

/-! ## Genesis -/

theorem storage_clear_of_ne (s : Storage) (k : Bytes) (h : ∀ p ∈ s, p.1 ≠ k) :
    storage_clear s k = s := by
  induction s with
  | nil => rfl
  | cons p rest ih =>
    obtain ⟨k0, v⟩ := p
    simp only [storage_clear]
    rw [if_neg (h (k0, v) (List.mem_cons_self _ _)),
      ih (fun q hq => h q (List.mem_cons_of_mem _ hq))]

theorem isUtxoKey_outputRef (r : OutputRef) : isUtxoKey (OutputRef.encode r) = true := by
  unfold isUtxoKey
  rw [Bool.and_eq_true]
  constructor
  · rw [beq_iff_eq]
    exact outputRef_encode_length r
  · rw [List.all_eq_true]
    intro b hb
    rw [decide_eq_true_eq]
    unfold OutputRef.encode h256LE u32LE at hb
    rcases List.mem_append.mp hb with hmem | hmem
    · exact natLE_mem_lt 32 _ b hmem
    · exact natLE_mem_lt 4 _ b hmem

/-- C7: running the genesis builder on the development list — exactly one
inputless transaction with one output of value 314 — succeeds; the resulting
store's UTXO-set portion is exactly one entry, keyed by the `OutputRef`
derived from the hash of the transaction's canonical encoding at index 0 and
holding that output; the full genesis transaction list sits in the transient
extrinsics slot and the height slot holds zero. -/
theorem genesis_scenario_a (hash : Bytes → Nat) :
    ∃ s', Genesis.build hash [] Genesis.development_genesis_transactions = .ok s' ∧
      utxoEntries s' =
        [(OutputRef.encode ⟨hash (GTransaction.encode ⟨[], [⟨314, shawnOwner⟩]⟩), 0⟩,
          GOutput.encode ⟨314, shawnOwner⟩)] ∧
      storage_get s' EXTRINSIC_KEY =
        some (encList GTransaction.encode Genesis.development_genesis_transactions) ∧
      storage_get s' HEIGHT_KEY = some (u32LE 0) := by
  have hne1 : HEIGHT_KEY ≠
      OutputRef.encode ⟨hash (GTransaction.encode ⟨[], [⟨314, shawnOwner⟩]⟩), 0⟩ := by
    intro hc
    have hlen := congrArg List.length hc
    rw [outputRef_encode_length] at hlen
    exact absurd hlen (by decide)
  have hne2 : EXTRINSIC_KEY ≠
      OutputRef.encode ⟨hash (GTransaction.encode ⟨[], [⟨314, shawnOwner⟩]⟩), 0⟩ := by
    intro hc
    have hlen := congrArg List.length hc
    rw [outputRef_encode_length] at hlen
    exact absurd hlen (by decide)
  refine ⟨(OutputRef.encode ⟨hash (GTransaction.encode ⟨[], [⟨314, shawnOwner⟩]⟩), 0⟩,
      GOutput.encode ⟨314, shawnOwner⟩) ::
      [(HEIGHT_KEY, u32LE 0),
       (EXTRINSIC_KEY, encList GTransaction.encode Genesis.development_genesis_transactions)],
    ?_, ?_, ?_, ?_⟩
  · have hbuild : Genesis.build hash [] Genesis.development_genesis_transactions =
        .ok (storage_set
          [(HEIGHT_KEY, u32LE 0),
           (EXTRINSIC_KEY, encList GTransaction.encode Genesis.development_genesis_transactions)]
          (OutputRef.encode ⟨hash (GTransaction.encode ⟨[], [⟨314, shawnOwner⟩]⟩), 0⟩)
          (GOutput.encode ⟨314, shawnOwner⟩)) := rfl
    rw [hbuild]
    unfold storage_set
    rw [storage_clear_of_ne _ _ ?hpairs]
    case hpairs =>
      intro p hp
      rcases List.mem_cons.mp hp with hq | hq
      · rw [hq]
        exact hne1
      · rcases List.mem_cons.mp hq with hq' | hq'
        · rw [hq']
          exact hne2
        · exact absurd hq' (List.not_mem_nil p)
  · unfold utxoEntries
    rw [List.filter_cons_of_pos (by exact isUtxoKey_outputRef _),
      List.filter_cons_of_neg (by decide), List.filter_cons_of_neg (by decide)]
    rfl
  · show storage_get _ EXTRINSIC_KEY = _
    simp only [storage_get]
    rw [if_neg (fun hc => hne2 hc.symm)]
    rfl
  · show storage_get _ HEIGHT_KEY = _
    simp only [storage_get]
    rw [if_neg (fun hc => hne1 hc.symm)]
    rfl

/-! ## close_block -/

theorem Header_decode_encode (hd : Header) (tl : Bytes) (hwf : HeaderWF hd) :
    Header.decode (Header.encode hd ++ tl) = some (hd, tl) := by
  obtain ⟨h1, h2, h3, h4⟩ := hwf
  have e32 : (256 : Nat) ^ 32 = 2 ^ 256 := by norm_num
  have e4 : (256 : Nat) ^ 4 = 2 ^ 32 := by norm_num
  have m1 : hd.parentHash % 256 ^ 32 = hd.parentHash := Nat.mod_eq_of_lt (by omega)
  have m2 : hd.number % 256 ^ 4 = hd.number := Nat.mod_eq_of_lt (by omega)
  have m3 : hd.stateRoot % 256 ^ 32 = hd.stateRoot := Nat.mod_eq_of_lt (by omega)
  have m4 : hd.extrinsicsRoot % 256 ^ 32 = hd.extrinsicsRoot := Nat.mod_eq_of_lt (by omega)
  have r1 := readLE_append 32 (natLE 32 hd.parentHash)
    (natLE 4 hd.number ++ (natLE 32 hd.stateRoot ++ (natLE 32 hd.extrinsicsRoot ++ tl)))
    (natLE_length 32 _)
  have r2 := readLE_append 4 (natLE 4 hd.number)
    (natLE 32 hd.stateRoot ++ (natLE 32 hd.extrinsicsRoot ++ tl)) (natLE_length 4 _)
  have r3 := readLE_append 32 (natLE 32 hd.stateRoot)
    (natLE 32 hd.extrinsicsRoot ++ tl) (natLE_length 32 _)
  have r4 := readLE_append 32 (natLE 32 hd.extrinsicsRoot) tl (natLE_length 32 _)
  simp only [Header.encode, Header.decode, h256LE, u32LE, List.append_assoc, r1, r2, r3, r4,
    Option.some_bind, Option.map_some', bytesToNatLE_natLE, m1, m2, m3, m4]

theorem decBytesElem_encOpaqueVec (b : Bytes) (tl : Bytes) (h : b.length < 2 ^ 32) :
    decBytesElem (encOpaqueVec b ++ tl) = some (b, tl) := by
  simp only [decBytesElem, encOpaqueVec, List.append_assoc,
    compactDec_compactEnc _ _ h, Option.some_bind]
  rw [if_pos (by rw [List.length_append]; omega)]
  rw [List.take_left, List.drop_left]

theorem decBytesList_encBytesList (l : List Bytes) (hlen : l.length < 2 ^ 32)
    (hb : ∀ b ∈ l, b.length < 2 ^ 32) :
    decBytesList (encBytesList l) = some (l, []) := by
  have hmain := decList_encList decBytesElem encOpaqueVec l [] hlen
    (fun a ha tl' => decBytesElem_encOpaqueVec a tl' (hb a ha))
  rw [List.append_nil] at hmain
  exact hmain

/-- C8: when the transient header slot holds an (in-range) header and the
extrinsics-accumulator slot holds the encoded accumulated list (or is absent,
standing for the empty accumulation), `close_block` returns that header with
its extrinsics-root field set to the ordered accumulator root of the
accumulated list and its state-root field set to the store commitment read
over the store after both transient slots are cleared, and both slots read
as cleared in the returned store.  The length bounds are the `u32`
compact-length ranges of the accumulator encoding. -/
theorem close_block_spec (otr : List Bytes → Nat) (stRoot : Storage → Nat)
    (s : Storage) (hd : Header) (xs : List Bytes)
    (hwf : HeaderWF hd)
    (hheader : storage_get s HEADER_KEY = some (Header.encode hd))
    (hext : (storage_get s EXTRINSIC_KEY = some (encBytesList xs) ∧
              xs.length < 2 ^ 32 ∧ ∀ b ∈ xs, b.length < 2 ^ 32) ∨
            (storage_get s EXTRINSIC_KEY = none ∧ xs = [])) :
    close_block otr stRoot s =
      some ({ hd with extrinsicsRoot := otr xs,
                      stateRoot :=
                        stRoot (storage_clear (storage_clear s HEADER_KEY) EXTRINSIC_KEY) },
            storage_clear (storage_clear s HEADER_KEY) EXTRINSIC_KEY) ∧
    storage_get (storage_clear (storage_clear s HEADER_KEY) EXTRINSIC_KEY) HEADER_KEY
      = none ∧
    storage_get (storage_clear (storage_clear s HEADER_KEY) EXTRINSIC_KEY) EXTRINSIC_KEY
      = none := by
  have hEH : (EXTRINSIC_KEY : Bytes) ≠ HEADER_KEY := by decide
  have hacc : getAccumulatedExtrinsics (storage_clear s HEADER_KEY) = xs := by
    unfold getAccumulatedExtrinsics
    rw [storage_get_clear_ne s hEH]
    rcases hext with ⟨hsome, hl, hbl⟩ | ⟨hnone, hxs⟩
    · rw [hsome, Option.some_bind, decBytesList_encBytesList xs hl hbl]
      rfl
    · rw [hnone, hxs]
      rfl
  have hdec : Header.decode (Header.encode hd) = some (hd, []) := by
    have hmain := Header_decode_encode hd [] hwf
    rw [List.append_nil] at hmain
    exact hmain
  refine ⟨?_, ?_, ?_⟩
  · unfold close_block
    rw [hheader, Option.some_bind, hdec, hacc]
  · rw [storage_get_clear_ne _ (by decide : (HEADER_KEY : Bytes) ≠ EXTRINSIC_KEY)]
    exact storage_get_clear_self _ _
  · exact storage_get_clear_self _ _

/-- Witness for C8: closing a block whose slots hold a concrete header and
one accumulated extrinsic, with list length standing in for both abstract
root commitments. -/
theorem close_block_spec_witness :
    close_block (fun l => l.length) (fun st => st.length)
      [(HEADER_KEY, Header.encode ⟨1, 2, 3, 4⟩), (EXTRINSIC_KEY, encBytesList [[7]])] =
      some (⟨1, 2, 0, 1⟩, []) ∧
    storage_get ([] : Storage) HEADER_KEY = none ∧
    storage_get ([] : Storage) EXTRINSIC_KEY = none :=
  close_block_spec (fun l => l.length) (fun st => st.length)
    [(HEADER_KEY, Header.encode ⟨1, 2, 3, 4⟩), (EXTRINSIC_KEY, encBytesList [[7]])]
    ⟨1, 2, 3, 4⟩ [[7]] (by decide) rfl (Or.inl ⟨rfl, by decide, by decide⟩)

end Griffin
